import Mathlib

/-!
# Deck-of-cards round counter (`cards.c`, `cards.h`)

A deck is a singly linked chain of `struct card` nodes.  The embedding
represents a chain by the list of the `value` fields met when following
`next` from the head; the `NULL` chain is the empty list.  Unsigned machine
integers are natural numbers reduced modulo `2 ^ w` wherever the C code
increments or converts them.  Pointer dereferences that the C code performs
without a guard return a `Fault` on the `NULL` chain, a read of a card outside
the allocated storage returns a `Fault` as well, and loops without a syntactic
bound take a fuel argument.
-/


instance instDecidableEqExcept {ε α : Type} [DecidableEq ε] [DecidableEq α] :
    DecidableEq (Except ε α)
  | .ok a, .ok b =>
    if h : a = b then isTrue (by rw [h]) else isFalse (fun h2 => h (Except.ok.inj h2))
  | .error a, .error b =>
    if h : a = b then isTrue (by rw [h]) else isFalse (fun h2 => h (Except.error.inj h2))
  | .ok _, .error _ => isFalse (fun h => Except.noConfusion h)
  | .error _, .ok _ => isFalse (fun h => Except.noConfusion h)

namespace Cards

/-- Ways in which a run of the embedded code can fail to produce a value: a dereference
of `NULL`, a read of a card outside the allocated storage, and exhausted fuel. -/
inductive Fault where
  | nullDeref
  | outOfBounds
  | outOfFuel
  deriving DecidableEq, Repr

/-- `MAX_CARD_COUNT`, `(1 << (sizeof(card_value_t)*8)) - 1` with `card_value_t = uint8_t`. -/
def MAX_CARD_COUNT : Nat := (1 <<< (1 * 8)) - 1

/-- Modulus of `card_value_t` (`uint8_t`). -/
def CARD_MOD : Nat := 2 ^ 8

/-- Modulus of `uint32_t`. -/
def U32_MOD : Nat := 2 ^ 32

/-- Modulus of `unsigned long` (LP64). -/
def ULONG_MOD : Nat := 2 ^ 64

/-- Loop of `is_in_order`: `for(ct = 0U; head && ct < count; ct++)`, with `ct` a `uint8_t`. -/
def is_in_order_loop : List Nat → Nat → Nat → Nat
  | [], _, _ => 1
  | value :: next, count, ct =>
    if ct < count then
      if value ≠ ct then 0
      else is_in_order_loop next count ((ct + 1) % CARD_MOD)
    else 1

/-- `is_in_order(cards, count)`. -/
def is_in_order (cards : List Nat) (count : Nat) : Nat :=
  is_in_order_loop cards count 0

/-- `enqueue_tail(&list, element)`: walks to the last node of `list` and links `element`
(whose `next` is `NULL`) behind it.  The first `head->next` dereferences `NULL` on the
empty chain. -/
def enqueue_tail : List Nat → Nat → Except Fault (List Nat)
  | [], _ => .error .nullDeref
  | value :: next, element =>
    match next with
    | [] => .ok [value, element]
    | _ :: _ => (enqueue_tail next element).map (fun l => value :: l)

/-- `enqueue_head(&list, element)`: `element` becomes the new head. -/
def enqueue_head (list : List Nat) (element : Nat) : List Nat :=
  element :: list

/-- `dequeue_head(&list, &popped_element)`: returns the popped element and the rest of the
chain.  `(*list)->next` dereferences `NULL` on the empty chain. -/
def dequeue_head : List Nat → Except Fault (Nat × List Nat)
  | [] => .error .nullDeref
  | value :: next => .ok (value, next)

/-- The `while(hand)` loop of `do_round`; returns the final `table`. -/
def do_round_loop : Nat → List Nat → List Nat → Except Fault (List Nat)
  | 0, _, _ => .error .outOfFuel
  | fuel + 1, hand, table =>
    if hand = [] then .ok table
    else
      match dequeue_head hand with
      | .error e => .error e
      | .ok (tmp, hand) =>
        let table := enqueue_head table tmp
        if hand = [] then .ok table
        else
          match dequeue_head hand with
          | .error e => .error e
          | .ok (tmp, hand) =>
            if hand = [] then
              do_round_loop fuel hand (enqueue_head table tmp)
            else
              match enqueue_tail hand tmp with
              | .error e => .error e
              | .ok hand => do_round_loop fuel hand table

/-- `do_round(&hand, &table)`: the pair returned is the new `(*hand_ptr, *table_ptr)`. -/
def do_round (fuel : Nat) (hand table : List Nat) : Except Fault (List Nat × List Nat) :=
  match do_round_loop fuel hand table with
  | .error e => .error e
  | .ok table => .ok (table, [])

/-- The initialisation loop of `rounds_to_loop`: card `ct` gets value `(card_value_t)ct`
and is linked behind card `ct - 1`. -/
def init_cards (cardCount : Nat) : List Nat :=
  (List.range cardCount).map (fun ct => ct % CARD_MOD)

/-- The `for(ct = 0UL; ; ct++)` loop of `rounds_to_loop` followed by `return ct + 1`,
with `ct` a `uint32_t`.  `rounds` bounds the number of iterations, `steps` the
iterations of each inner `do_round`. -/
def rounds_loop (steps cardCount : Nat) : Nat → List Nat → List Nat → Nat → Except Fault Nat
  | 0, _, _, _ => .error .outOfFuel
  | rounds + 1, hand, desk, ct =>
    match do_round steps hand desk with
    | .error e => .error e
    | .ok (hand, desk) =>
      if is_in_order hand cardCount ≠ 0 then .ok ((ct + 1) % U32_MOD)
      else rounds_loop steps cardCount rounds hand desk ((ct + 1) % U32_MOD)

/-- `rounds_to_loop(cardCount)`.  `mallocOk` says whether `malloc` returned storage.
For `cardCount = 0` the storage holds no card, yet `hand = cards` is not `NULL`: the
first `do_round` enters its loop and `dequeue_head` reads `(*list)->next` outside the
allocation, which has no defined result. -/
def rounds_to_loop (rounds steps : Nat) (mallocOk : Bool) (cardCount : Nat) :
    Except Fault Nat :=
  if !mallocOk then .ok ((ULONG_MOD - 1) % U32_MOD)
  else if cardCount = 0 then .error .outOfBounds
  else rounds_loop steps cardCount rounds (init_cards cardCount) [] 0

/-- Applying `do_round` `k` times, each time from an empty table: the hand reached after
`k` iterations of the loop of `rounds_to_loop`, together with the desk. -/
def rounds_iter (steps : Nat) : Nat → List Nat × List Nat → Except Fault (List Nat × List Nat)
  | 0, state => .ok state
  | k + 1, (hand, desk) =>
    match do_round steps hand desk with
    | .error e => .error e
    | .ok state => rounds_iter steps k state

/-- What `main` writes to `stdout`. -/
inductive Output where
  | nothing
  | tooMany (max : Nat)
  | report (count rounds : Nat)
  | outOfMemory
  deriving DecidableEq, Repr

/-- One run of `main`: its return value, the argument with which it called
`rounds_to_loop` (if it did) and what it printed. -/
structure MainRun where
  ret : Int
  called : Option Nat
  out : Output
  deriving DecidableEq, Repr

/-- Conversion of a `long` to `unsigned long`. -/
def to_ulong (v : Int) : Nat := (v % (ULONG_MOD : Int)).toNat

/-- Conversion of a `uint32_t` to `int` (two's complement). -/
def to_int (r : Nat) : Int := if r < 2 ^ 31 then (r : Int) else (r : Int) - (U32_MOD : Int)

/-- `main(argc, argv)`.  `parsed` is the value `strtol(argv[1], NULL, 10)` returns; it is
read only when `argc > 1`. -/
def main (rounds steps : Nat) (mallocOk : Bool) (argc : Nat) (parsed : Int) :
    Except Fault MainRun :=
  if argc > 1 then
    let ct := to_ulong parsed
    if ct > MAX_CARD_COUNT then
      .ok { ret := -1, called := none, out := .tooMany MAX_CARD_COUNT }
    else
      let count := ct % CARD_MOD
      if count ≤ 1 then
        .ok { ret := (count : Int), called := none, out := .report count count }
      else
        match rounds_to_loop rounds steps mallocOk count with
        | .error e => .error e
        | .ok r =>
          let rounds := to_int r
          if ULONG_MOD - 1 ≠ to_ulong rounds then
            .ok { ret := rounds, called := some count,
                  out := .report count (rounds % (U32_MOD : Int)).toNat }
          else
            .ok { ret := rounds, called := some count, out := .outOfMemory }
  else
    .ok { ret := -1, called := none, out := .nothing }

/-! ## The rule of the problem statement -/

/-- The rule of the problem statement in `cards.h`, steps 1 to 3: take the top card off
the deck and set it on the table, take the next card off the top and put it on the bottom
of the deck in the hand, until all cards are on the table.  Returns the table. -/
def naive_loop : Nat → List Nat → List Nat → Except Fault (List Nat)
  | 0, _, _ => .error .outOfFuel
  | _ + 1, [], table => .ok table
  | fuel + 1, top :: hand, table =>
    match hand with
    | [] => naive_loop fuel [] (top :: table)
    | next :: rest => naive_loop fuel (rest ++ [next]) (top :: table)

/-- One round by the rule of the problem statement, then picking up the deck from the
table (step 4). -/
def naive_round (fuel : Nat) (hand : List Nat) : Except Fault (List Nat) :=
  naive_loop fuel hand []

/-! ## The round as a function on lists -/

/-- Closed form of the table left by the `while(hand)` loop of `do_round`. -/
def deal : List Nat → List Nat → List Nat
  | [], table => table
  | [c], table => c :: table
  | [c, d], table => d :: c :: table
  | c :: d :: e :: rest, table => deal (e :: rest ++ [d]) (c :: table)
termination_by hand _ => hand.length
decreasing_by simp

/-- One round started on an empty table. -/
def roundOf (hand : List Nat) : List Nat := deal hand []

/-- The hand obtained from `[0, ..., N-1]` by one round. -/
def perm (N : Nat) : List Nat := roundOf (List.range N)

/-- Position map of one round on `N` cards: the card that ends at position `i`
comes from position `pos N i`. -/
def pos (N : Nat) (i : Nat) : Nat := (perm N).getD i 0

/-! ## A checked bound on the number of rounds

The number of rounds is the order of the position permutation, which has no closed form.
For every deck size up to `MAX_CARD_COUNT` a common period of all positions is computed
by following each position until the walk returns to it or drops below it, and compared
with `U32_MOD`.  The functions below are arranged so that the computation evaluates
quickly: the round is run on a two-list queue and the permutation is packed into one
number in base `256`. -/

/-- The round on a queue kept as a front list and a reversed back list. -/
def dealQ : Nat → List Nat → List Nat → List Nat → List Nat
  | 0, _, _, table => table
  | _ + 1, [], [], table => table
  | fuel + 1, [], d :: back, table => dealQ fuel (d :: back).reverse [] table
  | fuel + 1, [c], back, table =>
    match back.reverse with
    | [] => c :: table
    | d :: r => dealQ fuel r [d] (c :: table)
  | fuel + 1, c :: d :: rest, back, table => dealQ fuel rest (d :: back) (c :: table)

/-- Base-`256` packing of a list, first element lowest. -/
def encode : List Nat → Nat
  | [] => 0
  | a :: l => a + 256 * encode l

/-- Digit `i` of a packed list. -/
def lookup (E i : Nat) : Nat := E / 256 ^ i % 256

/-- Application of `k` to `x` that inspects `x` first, so that `x` is evaluated once. -/
def force {α : Type} (x : Nat) (k : Nat → α) : α :=
  match x with
  | 0 => k 0
  | n + 1 => k (n + 1)

/-- Follows position `i` through the packed permutation `E`: returns the length of the
cycle when the walk comes back to `i`, `1` when it meets a smaller position, and `0`
when the fuel runs out. -/
def walk (E i : Nat) : Nat → Nat → Nat → Nat
  | 0, _, _ => 0
  | fuel + 1, cur, cnt =>
    match Nat.beq cur i with
    | true => cnt
    | false =>
      match Nat.ble i cur with
      | false => 1
      | true => force (lookup E cur) fun nxt => force (cnt + 1) fun c => walk E i fuel nxt c

/-- Least common multiple of the walk results of the positions below `k`. -/
def ordUpTo (E N : Nat) : Nat → Nat
  | 0 => 1
  | k + 1 => Nat.lcm (ordUpTo E N k) (force (lookup E k) fun s => walk E k N s 1)

/-- A common period of all positions of a deck of `N` cards, or `0`. -/
def ordBound (N : Nat) : Nat :=
  force (encode (dealQ (2 * N + 5) (List.range N) [] [])) fun E => ordUpTo E N N

/-- Checks `0 < ordBound N < U32_MOD` for the `n` deck sizes from `lo` on. -/
def boundsOk (lo : Nat) : Nat → Bool
  | 0 => true
  | n + 1 =>
    (force (ordBound (lo + n)) fun L => Nat.ble 1 L && Nat.blt L 4294967296) && boundsOk lo n

/-! ## The round loop computes `deal` -/

theorem enqueue_tail_ok (list : List Nat) (element : Nat) (h : list ≠ []) :
    enqueue_tail list element = .ok (list ++ [element]) := by
  induction list with
  | nil => exact absurd rfl h
  | cons value next ih =>
    cases next with
    | nil => rfl
    | cons v n =>
      have := ih (by simp)
      rw [enqueue_tail, this]
      rfl

theorem do_round_loop_eq (fuel : Nat) :
    ∀ hand table : List Nat, hand.length < fuel →
      do_round_loop fuel hand table = .ok (deal hand table) := by
  induction fuel with
  | zero => intro hand table h; exact absurd h (Nat.not_lt_zero _)
  | succ fuel ih =>
    intro hand table h
    match hand, h with
    | [], _ => simp [do_round_loop, deal]
    | [c], _ => simp [do_round_loop, deal, dequeue_head, enqueue_head]
    | [c, d], h =>
      have hf : 0 < fuel := by simp at h; omega
      obtain ⟨f, rfl⟩ : ∃ f, fuel = f + 1 := ⟨fuel - 1, by omega⟩
      simp [do_round_loop, deal, dequeue_head, enqueue_head]
    | c :: d :: e :: rest, h =>
      have h2 : (e :: rest ++ [d]).length < fuel := by simp at h ⊢; omega
      have := ih (e :: rest ++ [d]) (c :: table) h2
      rw [deal]
      simp only [List.cons_append] at this
      simp [do_round_loop, dequeue_head, enqueue_head, enqueue_tail_ok, this]

theorem do_round_loop_cases (fuel : Nat) :
    ∀ hand table : List Nat,
      do_round_loop fuel hand table = .ok (deal hand table) ∨
      do_round_loop fuel hand table = .error .outOfFuel := by
  induction fuel with
  | zero => intro hand table; right; rfl
  | succ fuel ih =>
    intro hand table
    match hand with
    | [] => left; simp [do_round_loop, deal]
    | [c] => left; simp [do_round_loop, deal, dequeue_head, enqueue_head]
    | [c, d] =>
      cases fuel with
      | zero => right; simp [do_round_loop, dequeue_head, enqueue_head]
      | succ f => left; simp [do_round_loop, deal, dequeue_head, enqueue_head]
    | c :: d :: e :: rest =>
      have := ih (e :: rest ++ [d]) (c :: table)
      rw [deal]
      simpa [do_round_loop, dequeue_head, enqueue_head, enqueue_tail_ok] using this

theorem do_round_eq (fuel : Nat) (hand table : List Nat) (h : hand.length < fuel) :
    do_round fuel hand table = .ok (deal hand table, []) := by
  simp [do_round, do_round_loop_eq fuel hand table h]

theorem do_round_cases (fuel : Nat) (hand table : List Nat) :
    do_round fuel hand table = .ok (deal hand table, []) ∨
    do_round fuel hand table = .error .outOfFuel := by
  rcases do_round_loop_cases fuel hand table with h | h
  · left; simp [do_round, h]
  · right; simp [do_round, h]

theorem deal_perm : ∀ hand table : List Nat, (deal hand table).Perm (hand ++ table) := by
  intro hand table
  induction hand, table using deal.induct with
  | case1 table => simp [deal]
  | case2 c table => simp [deal]
  | case3 c d table =>
    simp only [deal]
    exact List.Perm.swap c d table
  | case4 c d e rest table ih =>
    rw [deal]
    refine ih.trans ?_
    have h1 : (e :: rest ++ [d] ++ c :: table).Perm (c :: (e :: rest ++ [d]) ++ table) := by
      simpa using (@List.perm_middle _ c (e :: rest ++ [d]) table)
    refine h1.trans ?_
    simp only [List.cons_append]
    refine List.Perm.cons c ?_
    have h2 : (e :: rest ++ [d]).Perm (d :: e :: rest) := by
      simpa using (List.perm_append_singleton d (e :: rest))
    simpa using h2.append_right table

theorem deal_length (hand table : List Nat) :
    (deal hand table).length = hand.length + table.length := by
  simpa using (deal_perm hand table).length_eq

theorem deal_map (f : Nat → Nat) : ∀ hand table : List Nat,
    deal (hand.map f) (table.map f) = (deal hand table).map f := by
  intro hand table
  induction hand, table using deal.induct with
  | case1 table => simp [deal]
  | case2 c table => simp [deal]
  | case3 c d table => simp [deal]
  | case4 c d e rest table ih =>
    have := ih
    simp only [List.map_cons, List.map_append, List.map_nil] at this ⊢
    rw [deal, deal]
    simpa using this

/-! ## The order check -/

theorem is_in_order_loop_spec (count : Nat) (hc : count ≤ MAX_CARD_COUNT) :
    ∀ (cards : List Nat) (ct : Nat), ct ≤ count →
      (is_in_order_loop cards count ct = 1 ↔
        ∀ i, i < cards.length → ct + i < count → cards[i]? = some (ct + i)) ∧
      (is_in_order_loop cards count ct = 1 ∨ is_in_order_loop cards count ct = 0) := by
  have hc2 : count ≤ 255 := hc
  intro cards
  induction cards with
  | nil => intro ct _; simp [is_in_order_loop]
  | cons value next ih =>
    intro ct hct
    by_cases h1 : ct < count
    · by_cases h2 : value = ct
      · have hmod : (ct + 1) % CARD_MOD = ct + 1 := Nat.mod_eq_of_lt (by simp [CARD_MOD]; omega)
        have hrec := ih (ct + 1) (by omega)
        simp only [is_in_order_loop, h1, if_true, h2, ne_eq, not_true_eq_false, if_false, hmod]
        refine ⟨?_, hrec.2⟩
        rw [hrec.1]
        constructor
        · intro H i hi hlt
          cases i with
          | zero => simp
          | succ j =>
            have := H j (by simpa using hi) (by omega)
            simpa [Nat.add_assoc, Nat.add_comm 1 j] using this
        · intro H i hi hlt
          have := H (i + 1) (by simpa using hi) (by omega)
          simpa [Nat.add_assoc, Nat.add_comm 1 i] using this
      · simp only [is_in_order_loop, h1, if_true, ne_eq, h2, not_false_eq_true]
        refine ⟨?_, by simp⟩
        constructor
        · intro H; exact absurd H (by decide)
        · intro H
          have := H 0 (by simp) (by simpa using h1)
          simp at this
          exact absurd this h2
    · simp only [is_in_order_loop, h1, if_false]
      refine ⟨?_, by simp⟩
      constructor
      · intro _ i _ hlt; omega
      · intro _; trivial

theorem is_in_order_iff_range (N : Nat) (hN : N ≤ MAX_CARD_COUNT) (hand : List Nat)
    (hlen : hand.length = N) : is_in_order hand N = 1 ↔ hand = List.range N := by
  have h := (is_in_order_loop_spec N hN hand 0 (Nat.zero_le _)).1
  unfold is_in_order
  rw [h]
  constructor
  · intro H
    apply List.ext_getElem?
    intro i
    by_cases hi : i < N
    · have := H i (by omega) (by omega)
      simp only [Nat.zero_add] at this
      rw [this, List.getElem?_range hi]
    · rw [List.getElem?_eq_none (by omega), List.getElem?_eq_none (by simp; omega)]
  · intro H i hi _
    subst H
    simp only [Nat.zero_add]
    exact List.getElem?_range (by simpa using hi)

/-! ## Iterated rounds -/

theorem roundOf_length (hand : List Nat) : (roundOf hand).length = hand.length := by
  simp [roundOf, deal_length]

theorem roundOf_iterate_length (k : Nat) (hand : List Nat) :
    (roundOf^[k] hand).length = hand.length := by
  induction k generalizing hand with
  | zero => rfl
  | succ k ih => rw [Function.iterate_succ_apply, ih, roundOf_length]

theorem roundOf_map (f : Nat → Nat) (hand : List Nat) :
    roundOf (hand.map f) = (roundOf hand).map f := by
  simpa [roundOf] using deal_map f hand []

theorem roundOf_iterate_map (f : Nat → Nat) (k : Nat) (hand : List Nat) :
    roundOf^[k] (hand.map f) = (roundOf^[k] hand).map f := by
  induction k generalizing hand with
  | zero => rfl
  | succ k ih => rw [Function.iterate_succ_apply, Function.iterate_succ_apply, roundOf_map, ih]

theorem roundOf_perm (hand : List Nat) : (roundOf hand).Perm hand := by
  simpa [roundOf] using deal_perm hand []

theorem roundOf_iterate_perm (k : Nat) (hand : List Nat) : (roundOf^[k] hand).Perm hand := by
  induction k generalizing hand with
  | zero => exact List.Perm.refl _
  | succ k ih =>
    rw [Function.iterate_succ_apply]
    exact (ih (roundOf hand)).trans (roundOf_perm hand)

theorem rounds_iter_eq (steps : Nat) (k : Nat) (hand : List Nat) (h : hand.length < steps) :
    rounds_iter steps k (hand, []) = .ok (roundOf^[k] hand, []) := by
  induction k generalizing hand with
  | zero => rfl
  | succ k ih =>
    rw [rounds_iter, do_round_eq steps hand [] h]
    simp only []
    rw [Function.iterate_succ_apply]
    exact ih (roundOf hand) (by rw [roundOf_length]; exact h)

theorem rounds_iter_cases (steps : Nat) (k : Nat) (hand : List Nat) :
    rounds_iter steps k (hand, []) = .ok (roundOf^[k] hand, []) ∨
    rounds_iter steps k (hand, []) = .error .outOfFuel := by
  induction k generalizing hand with
  | zero => left; rfl
  | succ k ih =>
    rcases do_round_cases steps hand [] with h | h
    · rw [rounds_iter, h]
      simp only []
      rw [Function.iterate_succ_apply]
      exact ih (roundOf hand)
    · right
      rw [rounds_iter, h]

theorem init_cards_eq (N : Nat) (hN : N ≤ MAX_CARD_COUNT) : init_cards N = List.range N := by
  have hN2 : N ≤ 255 := hN
  unfold init_cards
  conv_rhs => rw [← List.map_id (List.range N)]
  apply List.map_congr_left
  intro a ha
  have : a < N := List.mem_range.mp ha
  simp only [id, CARD_MOD]
  omega

theorem rounds_loop_ok (steps N : Nat) :
    ∀ (rounds : Nat) (hand : List Nat) (ct m : Nat), hand.length < steps →
      (∀ j, j < m → is_in_order (roundOf^[j + 1] hand) N = 0) →
      is_in_order (roundOf^[m + 1] hand) N ≠ 0 → m < rounds →
      rounds_loop steps N rounds hand [] ct = .ok ((ct + m + 1) % U32_MOD) := by
  intro rounds
  induction rounds with
  | zero => intro hand ct m _ _ _ h; exact absurd h (Nat.not_lt_zero _)
  | succ rounds ih =>
    intro hand ct m hlen hno hyes hm
    rw [rounds_loop, do_round_eq steps hand [] hlen]
    simp only []
    cases m with
    | zero =>
      have : is_in_order (deal hand []) N ≠ 0 := by simpa [roundOf] using hyes
      simp [this]
    | succ m =>
      have h0 : is_in_order (deal hand []) N = 0 := by
        simpa [roundOf] using hno 0 (Nat.succ_pos m)
      simp only [h0, ne_eq, not_true_eq_false, if_false]
      have := ih (roundOf hand) ((ct + 1) % U32_MOD) m (by rw [roundOf_length]; exact hlen)
        (fun j hj => by
          have := hno (j + 1) (by omega)
          rwa [Function.iterate_succ_apply] at this)
        (by rwa [Function.iterate_succ_apply] at hyes) (by omega)
      rw [show deal hand [] = roundOf hand from rfl, this]
      simp only [U32_MOD]
      congr 1
      omega

theorem rounds_loop_cases (steps N : Nat) :
    ∀ (rounds : Nat) (hand : List Nat) (ct : Nat),
      rounds_loop steps N rounds hand [] ct = .error .outOfFuel ∨
      ∃ m, m < rounds ∧ (∀ j, j < m → is_in_order (roundOf^[j + 1] hand) N = 0) ∧
        is_in_order (roundOf^[m + 1] hand) N ≠ 0 ∧
        rounds_loop steps N rounds hand [] ct = .ok ((ct + m + 1) % U32_MOD) := by
  intro rounds
  induction rounds with
  | zero => intro hand ct; left; rfl
  | succ rounds ih =>
    intro hand ct
    rcases do_round_cases steps hand [] with h | h
    · rw [rounds_loop, h]
      simp only []
      by_cases hin : is_in_order (deal hand []) N = 0
      · simp only [hin, ne_eq, not_true_eq_false, if_false]
        rcases ih (roundOf hand) ((ct + 1) % U32_MOD) with h2 | ⟨m, hm, hno, hyes, hres⟩
        · left; exact h2
        · right
          refine ⟨m + 1, by omega, ?_, ?_, ?_⟩
          · intro j hj
            cases j with
            | zero => simpa [roundOf] using hin
            | succ j =>
              rw [Function.iterate_succ_apply]
              exact hno j (by omega)
          · rw [Function.iterate_succ_apply]; exact hyes
          · rw [show deal hand [] = roundOf hand from rfl, hres]
            simp only [U32_MOD]
            congr 1
            omega
      · right
        refine ⟨0, by omega, fun j hj => absurd hj (Nat.not_lt_zero _), ?_, ?_⟩
        · simpa [roundOf] using hin
        · simp [hin]
    · left
      rw [rounds_loop, h]

/-! ## The round as a permutation of positions -/

theorem perm_perm (N : Nat) : (perm N).Perm (List.range N) := roundOf_perm _

theorem perm_length (N : Nat) : (perm N).length = N := by
  simp [perm, roundOf_length]

theorem pos_eq_getElem (N i : Nat) (h : i < N) :
    pos N i = (perm N).get ⟨i, by rw [perm_length]; exact h⟩ := by
  unfold pos
  rw [List.getD_eq_getElem _ _ (by rw [perm_length]; exact h)]
  rfl

theorem pos_lt (N i : Nat) (h : i < N) : pos N i < N := by
  rw [pos_eq_getElem N i h]
  have hm : (perm N).get ⟨i, by rw [perm_length]; exact h⟩ ∈ perm N := List.get_mem _ _ _
  exact List.mem_range.mp ((perm_perm N).mem_iff.mp hm)

theorem pos_inj (N i j : Nat) (hi : i < N) (hj : j < N) (h : pos N i = pos N j) : i = j := by
  rw [pos_eq_getElem N i hi, pos_eq_getElem N j hj] at h
  have hnd : (perm N).Nodup := (perm_perm N).nodup_iff.mpr (List.nodup_range N)
  have := (List.Nodup.get_inj_iff hnd).mp h
  simpa using congrArg Fin.val this

theorem map_getD_range (l : List Nat) : (List.range l.length).map (fun i => l.getD i 0) = l := by
  apply List.ext_getElem
  · simp
  · intro n h1 h2
    simp [List.getElem?_eq_getElem h2]

theorem perm_eq_map_pos (N : Nat) : perm N = (List.range N).map (pos N) := by
  have := map_getD_range (perm N)
  rw [perm_length] at this
  exact this.symm

theorem roundOf_iterate_range (N k : Nat) :
    roundOf^[k] (List.range N) = (List.range N).map ((pos N)^[k]) := by
  induction k with
  | zero => simp
  | succ k ih =>
    rw [Function.iterate_succ_apply, show roundOf (List.range N) = perm N from rfl,
      perm_eq_map_pos, roundOf_iterate_map, ih, List.map_map, Function.iterate_succ']

theorem map_range_eq_range_iff (N : Nat) (g : Nat → Nat) :
    (List.range N).map g = List.range N ↔ ∀ i, i < N → g i = i := by
  constructor
  · intro h i hi
    have := congrArg (fun l => l.getD i 0) h
    simpa [List.getD_eq_getElem?_getD, List.getElem?_range hi] using this
  · intro h
    conv_rhs => rw [← List.map_id (List.range N)]
    apply List.map_congr_left
    intro a ha
    exact h a (List.mem_range.mp ha)

theorem roundOf_iterate_range_eq_iff (N k : Nat) :
    roundOf^[k] (List.range N) = List.range N ↔ ∀ i, i < N → (pos N)^[k] i = i := by
  rw [roundOf_iterate_range, map_range_eq_range_iff]

theorem pos_iterate_lt (N k i : Nat) (h : i < N) : (pos N)^[k] i < N := by
  induction k with
  | zero => exact h
  | succ k ih =>
    rw [Function.iterate_succ_apply']
    exact pos_lt N _ ih

theorem pos_iterate_inj (N k i j : Nat) (hi : i < N) (hj : j < N)
    (h : (pos N)^[k] i = (pos N)^[k] j) : i = j := by
  induction k with
  | zero => exact h
  | succ k ih =>
    rw [Function.iterate_succ_apply', Function.iterate_succ_apply'] at h
    exact ih (pos_inj N _ _ (pos_iterate_lt N k i hi) (pos_iterate_lt N k j hj) h)

theorem equiv_pow_val (N : Nat) (e : Equiv.Perm (Fin N))
    (he : ∀ i : Fin N, (e i).val = pos N i.val) (k : Nat) (i : Fin N) :
    ((e ^ k) i).val = (pos N)^[k] i.val := by
  induction k generalizing i with
  | zero => rfl
  | succ k ih =>
    rw [pow_succ, Equiv.Perm.mul_apply, ih, Function.iterate_succ_apply, he]

theorem exists_pos_period (N : Nat) : ∃ k, 1 ≤ k ∧ ∀ i, i < N → (pos N)^[k] i = i := by
  have hbij : Function.Bijective (fun i : Fin N => (⟨pos N i.val, pos_lt N i.val i.isLt⟩ : Fin N)) :=
    Finite.injective_iff_bijective.mp (fun i j h => by
      apply Fin.ext
      exact pos_inj N i.val j.val i.isLt j.isLt (by simpa using congrArg Fin.val h))
  let e : Equiv.Perm (Fin N) := Equiv.ofBijective _ hbij
  refine ⟨orderOf e, orderOf_pos _, ?_⟩
  intro i hi
  have := equiv_pow_val N e (fun _ => rfl) (orderOf e) ⟨i, hi⟩
  rw [pow_orderOf_eq_one] at this
  exact this.symm

theorem exists_rounds_identity (N : Nat) :
    ∃ k, 1 ≤ k ∧ roundOf^[k] (List.range N) = List.range N := by
  obtain ⟨k, hk, h⟩ := exists_pos_period N
  exact ⟨k, hk, (roundOf_iterate_range_eq_iff N k).mpr h⟩

/-! ## The checked bound holds up to `MAX_CARD_COUNT` -/

set_option maxRecDepth 1000000 in
theorem boundsOk_0 : boundsOk 0 96 = true := by decide!

set_option maxRecDepth 1000000 in
theorem boundsOk_96 : boundsOk 96 48 = true := by decide!

set_option maxRecDepth 1000000 in
theorem boundsOk_144 : boundsOk 144 32 = true := by decide!

set_option maxRecDepth 1000000 in
theorem boundsOk_176 : boundsOk 176 32 = true := by decide!

set_option maxRecDepth 1000000 in
theorem boundsOk_208 : boundsOk 208 24 = true := by decide!

set_option maxRecDepth 1000000 in
theorem boundsOk_232 : boundsOk 232 24 = true := by decide!

theorem force_eq {α : Type} (x : Nat) (k : Nat → α) : force x k = k x := by
  cases x <;> rfl

theorem deal_cons_cons (c d : Nat) (r table : List Nat) :
    deal (c :: d :: r) table = deal (r ++ [d]) (c :: table) := by
  cases r with
  | nil => simp [deal]
  | cons e rest => rw [deal]

theorem dealQ_eq (fuel : Nat) :
    ∀ front back table : List Nat, 2 * front.length + 3 * back.length < fuel →
      dealQ fuel front back table = deal (front ++ back.reverse) table := by
  induction fuel with
  | zero => intro front back table h; exact absurd h (Nat.not_lt_zero _)
  | succ fuel ih =>
    intro front back table h
    match front, back, h with
    | [], [], _ => simp [dealQ, deal]
    | [], d :: back, h =>
      rw [dealQ, ih _ _ _ (by simp at h ⊢; omega)]
      simp
    | [c], back, h =>
      rw [dealQ]
      cases hrev : back.reverse with
      | nil => simp [deal]
      | cons d r =>
        have hlen : r.length + 1 = back.length := by
          have := congrArg List.length hrev
          simpa using this.symm
        simp only []
        rw [ih _ _ _ (by simp at h ⊢; omega)]
        simp [deal_cons_cons]
    | c :: d :: rest, back, h =>
      rw [dealQ, ih _ _ _ (by simp at h ⊢; omega)]
      simp [deal_cons_cons]

theorem lookup_encode (l : List Nat) (hl : ∀ a, a ∈ l → a < 256) :
    ∀ i, lookup (encode l) i = l.getD i 0 := by
  induction l with
  | nil => intro i; simp [lookup, encode]
  | cons a l ih =>
    intro i
    have ha : a < 256 := hl a (List.mem_cons_self _ _)
    have ih2 := ih (fun b hb => hl b (List.mem_cons_of_mem _ hb))
    cases i with
    | zero =>
      simp only [lookup, encode, pow_zero, Nat.div_one, List.getD_cons_zero]
      omega
    | succ i =>
      have h1 : (a + 256 * encode l) / 256 ^ (i + 1) = encode l / 256 ^ i := by
        have hp : 256 ^ (i + 1) = 256 * 256 ^ i := by rw [pow_succ, Nat.mul_comm]
        have hd : (a + 256 * encode l) / 256 = encode l := by omega
        rw [hp, ← Nat.div_div_eq_div_mul, hd]
      have := ih2 i
      simp only [lookup] at this
      simp only [lookup, encode, h1, List.getD_cons_succ, this]

theorem lookup_perm (N : Nat) (hN : N ≤ MAX_CARD_COUNT) (i : Nat) :
    lookup (encode (dealQ (2 * N + 5) (List.range N) [] [])) i = pos N i := by
  have hN2 : N ≤ 255 := hN
  rw [dealQ_eq _ _ _ _ (by simp)]
  simp only [List.reverse_nil, List.append_nil]
  exact lookup_encode (perm N) (fun a ha => by
    have := List.mem_range.mp ((perm_perm N).mem_iff.mp ha)
    omega) i

theorem iterate_fixed_mul {f : Nat → Nat} {c x : Nat} (h : f^[c] x = x) (q : Nat) :
    f^[c * q] x = x := by
  induction q with
  | zero => rfl
  | succ q ih => rw [Nat.mul_succ, Function.iterate_add_apply, h, ih]

theorem iterate_fixed_dvd {f : Nat → Nat} {c L x : Nat} (h : f^[c] x = x) (hd : c ∣ L) :
    f^[L] x = x := by
  obtain ⟨q, rfl⟩ := hd
  exact iterate_fixed_mul h q

theorem walk_spec (E i : Nat) (f : Nat → Nat) (hf : ∀ x, lookup E x = f x) :
    ∀ fuel cur cnt, cur = f^[cnt] i → walk E i fuel cur cnt ≠ 0 →
      f^[walk E i fuel cur cnt] i = i ∨ ∃ t, f^[t] i < i := by
  intro fuel
  induction fuel with
  | zero => intro cur cnt _ h; exact absurd rfl h
  | succ fuel ih =>
    intro cur cnt hcur hne
    rw [walk] at hne ⊢
    cases hb : Nat.beq cur i with
    | true =>
      left
      have : cur = i := Nat.eq_of_beq_eq_true hb
      simp only []
      rw [← hcur, this]
    | false =>
      cases hle : Nat.ble i cur with
      | false =>
        right
        refine ⟨cnt, ?_⟩
        rw [← hcur]
        have : ¬ i ≤ cur := fun h => by
          rw [Nat.ble_eq_true_of_le h] at hle
          exact Bool.noConfusion hle
        omega
      | true =>
        simp only [hb, hle, force_eq] at hne ⊢
        refine ih (lookup E cur) (cnt + 1) ?_ hne
        rw [hf, hcur, Function.iterate_succ_apply']

theorem ordUpTo_spec (E N : Nat) (hf : ∀ x, lookup E x = pos N x) :
    ∀ k, k ≤ N → ordUpTo E N k ≠ 0 → ∀ j, j < k → (pos N)^[ordUpTo E N k] j = j := by
  intro k
  induction k with
  | zero => intro _ _ j hj; exact absurd hj (Nat.not_lt_zero _)
  | succ k ih =>
    intro hk hne j hj
    rw [ordUpTo] at hne ⊢
    simp only [force_eq] at hne ⊢
    have hL : ordUpTo E N k ≠ 0 := fun h => hne (by rw [h, Nat.lcm_zero_left])
    have hw : walk E k N (lookup E k) 1 ≠ 0 := fun h => hne (by rw [h, Nat.lcm_zero_right])
    have hold : ∀ j, j < k →
        (pos N)^[Nat.lcm (ordUpTo E N k) (walk E k N (lookup E k) 1)] j = j :=
      fun j hj => iterate_fixed_dvd (ih (by omega) hL j hj) (Nat.dvd_lcm_left _ _)
    rcases Nat.lt_succ_iff_lt_or_eq.mp hj with hlt | heq
    · exact hold j hlt
    · subst heq
      rcases walk_spec E j (pos N) hf N (lookup E j) 1 (by rw [hf]; rfl) hw with h | ⟨t, ht⟩
      · exact iterate_fixed_dvd h (Nat.dvd_lcm_right _ _)
      · have hj2 : j < N := by omega
        apply pos_iterate_inj N t _ _ (pos_iterate_lt N _ j hj2) hj2
        rw [← Function.iterate_add_apply, Nat.add_comm, Function.iterate_add_apply]
        exact hold _ ht

theorem ordBound_spec (N : Nat) (hN : N ≤ MAX_CARD_COUNT) (h : ordBound N ≠ 0) :
    ∀ i, i < N → (pos N)^[ordBound N] i = i := by
  unfold ordBound at h ⊢
  rw [force_eq] at h ⊢
  exact ordUpTo_spec _ N (lookup_perm N hN) N (Nat.le_refl _) h

theorem boundsOk_spec (lo : Nat) :
    ∀ n, boundsOk lo n = true → ∀ N, lo ≤ N → N < lo + n →
      0 < ordBound N ∧ ordBound N < U32_MOD := by
  intro n
  induction n with
  | zero => intro _ N h1 h2; omega
  | succ n ih =>
    intro h N h1 h2
    rw [boundsOk, force_eq, Bool.and_eq_true, Bool.and_eq_true] at h
    by_cases hN : N = lo + n
    · subst hN
      have h3 : U32_MOD = 4294967296 := by norm_num [U32_MOD]
      have h4 : (ordBound (lo + n)).succ ≤ 4294967296 := Nat.le_of_ble_eq_true h.1.2
      exact ⟨Nat.le_of_ble_eq_true h.1.1, by rw [h3]; omega⟩
    · exact ih h.2 N h1 (by omega)

theorem ordBound_ok (N : Nat) (hN : N ≤ MAX_CARD_COUNT) :
    0 < ordBound N ∧ ordBound N < U32_MOD := by
  have hN2 : N ≤ 255 := hN
  by_cases h1 : N < 96
  · exact boundsOk_spec 0 96 boundsOk_0 N (by omega) (by omega)
  by_cases h2 : N < 144
  · exact boundsOk_spec 96 48 boundsOk_96 N (by omega) (by omega)
  by_cases h3 : N < 176
  · exact boundsOk_spec 144 32 boundsOk_144 N (by omega) (by omega)
  by_cases h4 : N < 208
  · exact boundsOk_spec 176 32 boundsOk_176 N (by omega) (by omega)
  by_cases h5 : N < 232
  · exact boundsOk_spec 208 24 boundsOk_208 N (by omega) (by omega)
  · exact boundsOk_spec 232 24 boundsOk_232 N (by omega) (by omega)

theorem exists_small_period (N : Nat) (hN : N ≤ MAX_CARD_COUNT) :
    ∃ L, 1 ≤ L ∧ L < U32_MOD ∧ roundOf^[L] (List.range N) = List.range N := by
  obtain ⟨h1, h2⟩ := ordBound_ok N hN
  exact ⟨ordBound N, h1, h2,
    (roundOf_iterate_range_eq_iff N _).mpr (ordBound_spec N hN (by omega))⟩

/-! ## The result of `rounds_to_loop` -/

theorem is_in_order_iterate (N : Nat) (hN : N ≤ MAX_CARD_COUNT) (k : Nat) :
    (is_in_order (roundOf^[k] (List.range N)) N ≠ 0 ↔ roundOf^[k] (List.range N) = List.range N) ∧
    (is_in_order (roundOf^[k] (List.range N)) N = 1 ↔ roundOf^[k] (List.range N) = List.range N) := by
  have hlen : (roundOf^[k] (List.range N)).length = N := by
    rw [roundOf_iterate_length, List.length_range]
  have h1 := is_in_order_iff_range N hN _ hlen
  have h2 := (is_in_order_loop_spec N hN (roundOf^[k] (List.range N)) 0 (Nat.zero_le _)).2
  refine ⟨?_, h1⟩
  rw [← h1]
  unfold is_in_order
  rcases h2 with h | h <;> simp [h]

theorem rounds_to_loop_spec (N : Nat) (h1 : 1 ≤ N) (hN : N ≤ MAX_CARD_COUNT) (k : Nat)
    (hk1 : 1 ≤ k)
    (hk : roundOf^[k] (List.range N) = List.range N)
    (hmin : ∀ j, 1 ≤ j → j < k → roundOf^[j] (List.range N) ≠ List.range N) :
    (∀ rounds steps, k ≤ rounds → N < steps →
      rounds_to_loop rounds steps true N = .ok (k % U32_MOD)) ∧
    (∀ rounds steps r, rounds_to_loop rounds steps true N = .ok r → r = k % U32_MOD) := by
  have hno : ∀ j, j < k - 1 → is_in_order (roundOf^[j + 1] (List.range N)) N = 0 := by
    intro j hj
    by_contra hc
    exact hmin (j + 1) (by omega) (by omega) ((is_in_order_iterate N hN (j + 1)).1.mp hc)
  have hyes : is_in_order (roundOf^[k - 1 + 1] (List.range N)) N ≠ 0 := by
    rw [Nat.sub_add_cancel hk1]
    exact (is_in_order_iterate N hN k).1.mpr hk
  constructor
  · intro rounds steps hr hs
    unfold rounds_to_loop
    simp only [Bool.not_true, Bool.false_eq_true, if_false, Nat.ne_of_gt h1]
    rw [init_cards_eq N hN,
      rounds_loop_ok steps N rounds (List.range N) 0 (k - 1) (by simpa using hs) hno hyes
        (by omega)]
    congr 2
    omega
  · intro rounds steps r h
    unfold rounds_to_loop at h
    simp only [Bool.not_true, Bool.false_eq_true, if_false, Nat.ne_of_gt h1] at h
    rw [init_cards_eq N hN] at h
    rcases rounds_loop_cases steps N rounds (List.range N) 0 with he | ⟨m, _, hno2, hyes2, hres⟩
    · rw [he] at h
      exact Except.noConfusion h
    · rw [hres] at h
      have hr : (0 + m + 1) % U32_MOD = r := Except.ok.inj h
      have hm1 : roundOf^[m + 1] (List.range N) = List.range N :=
        (is_in_order_iterate N hN (m + 1)).1.mp hyes2
      have hle : k ≤ m + 1 := by
        by_contra hc
        exact hmin (m + 1) (by omega) (by omega) hm1
      have hge : m + 1 ≤ k := by
        by_contra hc
        exact hyes (hno2 (k - 1) (by omega))
      have : m + 1 = k := by omega
      rw [← hr, ← this]
      congr 1
      omega

/-- C1: for every deck size `1 ≤ N ≤ 255`, with the allocation succeeding,
`rounds_to_loop(N)` returns the least `k ≥ 1` such that `k` applications of `do_round`
to the initial hand `[0, ..., N-1]` give `[0, ..., N-1]` again; no smaller positive
number of rounds does.  The value is returned whenever the fuel allows `k` rounds, and
no amount of fuel yields another value. -/
theorem rounds_to_loop_least (N : Nat) (h1 : 1 ≤ N) (hN : N ≤ MAX_CARD_COUNT) :
    ∃ k, 1 ≤ k ∧ init_cards N = List.range N ∧
      (∀ rounds steps, k ≤ rounds → N < steps → rounds_to_loop rounds steps true N = .ok k) ∧
      (∀ rounds steps r, rounds_to_loop rounds steps true N = .ok r → r = k) ∧
      (∀ steps, N < steps →
        rounds_iter steps k (List.range N, []) = .ok (List.range N, [])) ∧
      (∀ j steps, 1 ≤ j → j < k →
        rounds_iter steps j (List.range N, []) ≠ .ok (List.range N, [])) := by
  have hex := exists_rounds_identity N
  have hspec := Nat.find_spec hex
  have hmin : ∀ j, 1 ≤ j → j < Nat.find hex → roundOf^[j] (List.range N) ≠ List.range N :=
    fun j hj1 hj h => Nat.find_min hex hj ⟨hj1, h⟩
  obtain ⟨L, hL1, hL2, hL⟩ := exists_small_period N hN
  have hlt : Nat.find hex < U32_MOD := lt_of_le_of_lt (Nat.find_min' hex ⟨hL1, hL⟩) hL2
  have hmod : Nat.find hex % U32_MOD = Nat.find hex := Nat.mod_eq_of_lt hlt
  have hmain := rounds_to_loop_spec N h1 hN (Nat.find hex) hspec.1 hspec.2 hmin
  rw [hmod] at hmain
  refine ⟨Nat.find hex, hspec.1, init_cards_eq N hN, hmain.1, hmain.2, ?_, ?_⟩
  · intro steps hs
    rw [rounds_iter_eq steps _ _ (by simpa using hs), hspec.2]
  · intro j steps hj1 hj h
    rcases rounds_iter_cases steps j (List.range N) with h2 | h2
    · rw [h2] at h
      exact hmin j hj1 hj (congrArg Prod.fst (Except.ok.inj h))
    · rw [h2] at h
      exact Except.noConfusion h

/-- Witness of C1 at `N = 5`. -/
theorem rounds_to_loop_least_witness :
    ∃ k, 1 ≤ k ∧ init_cards 5 = List.range 5 ∧
      (∀ rounds steps, k ≤ rounds → 5 < steps → rounds_to_loop rounds steps true 5 = .ok k) ∧
      (∀ rounds steps r, rounds_to_loop rounds steps true 5 = .ok r → r = k) ∧
      (∀ steps, 5 < steps →
        rounds_iter steps k (List.range 5, []) = .ok (List.range 5, [])) ∧
      (∀ j steps, 1 ≤ j → j < k →
        rounds_iter steps j (List.range 5, []) ≠ .ok (List.range 5, [])) :=
  rounds_to_loop_least 5 (by decide) (by decide)

theorem roundOf_two : roundOf [0, 1] = [1, 0] := by
  simp [roundOf, deal]

theorem roundOf_three : roundOf [0, 1, 2] = [1, 2, 0] ∧ roundOf [1, 2, 0] = [2, 0, 1] ∧
    roundOf [2, 0, 1] = [0, 1, 2] := by
  simp [roundOf, deal]

theorem rounds_three_spec :
    (∀ rounds steps, 3 ≤ rounds → 3 < steps → rounds_to_loop rounds steps true 3 = .ok 3) ∧
    (∀ rounds steps r, rounds_to_loop rounds steps true 3 = .ok r → r = 3) := by
  have hr : List.range 3 = [0, 1, 2] := by decide
  have h := rounds_to_loop_spec 3 (by decide) (by decide) 3 (by decide)
    (by
      rw [hr]
      simp only [Function.iterate_succ, Function.iterate_zero, Function.comp_apply, id_eq,
        roundOf_three.1, roundOf_three.2.1, roundOf_three.2.2])
    (by
      intro j hj1 hj3
      rw [hr]
      have hj : j = 1 ∨ j = 2 := by omega
      rcases hj with rfl | rfl
      · simp only [Function.iterate_succ, Function.iterate_zero, Function.comp_apply, id_eq,
          roundOf_three.1]
        decide
      · simp only [Function.iterate_succ, Function.iterate_zero, Function.comp_apply, id_eq,
          roundOf_three.1, roundOf_three.2.1]
        decide)
  exact h

theorem rounds_two_spec :
    (∀ rounds steps, 2 ≤ rounds → 2 < steps → rounds_to_loop rounds steps true 2 = .ok 2) ∧
    (∀ rounds steps r, rounds_to_loop rounds steps true 2 = .ok r → r = 2) := by
  have hr : List.range 2 = [0, 1] := by decide
  have h10 : roundOf [1, 0] = [0, 1] := by simp [roundOf, deal]
  have h := rounds_to_loop_spec 2 (by decide) (by decide) 2 (by decide)
    (by
      rw [hr]
      simp only [Function.iterate_succ, Function.iterate_zero, Function.comp_apply, id_eq,
        roundOf_two, h10])
    (by
      intro j hj1 hj2
      rw [hr]
      have hj : j = 1 := by omega
      subst hj
      simp only [Function.iterate_succ, Function.iterate_zero, Function.comp_apply, id_eq,
        roundOf_two]
      decide)
  exact h

/-- C3, as the code has it: for `N = 3` the round count is `3`: with fuel for three
rounds `rounds_to_loop(3)` returns `3`. -/
theorem rounds_to_loop_three (rounds steps : Nat) (hr : 3 ≤ rounds) (hs : 3 < steps) :
    rounds_to_loop rounds steps true 3 = .ok 3 :=
  rounds_three_spec.1 rounds steps hr hs

/-- Witness of the amended C3 with fuel for three rounds of four steps. -/
theorem rounds_to_loop_three_witness : rounds_to_loop 3 4 true 3 = .ok 3 :=
  rounds_to_loop_three 3 4 (by decide) (by decide)

/-- C3 as stated fails: for no amount of fuel does `rounds_to_loop(3)` return `2`. -/
theorem rounds_to_loop_three_ne_two :
    ¬ ∃ rounds steps, rounds_to_loop rounds steps true 3 = .ok 2 := by
  rintro ⟨rounds, steps, h⟩
  exact absurd (rounds_three_spec.2 rounds steps 2 h) (by decide)

/-- C4, as the code has it: one application of `do_round` to the hand `[0, 1]` gives
`[1, 0]`, a second one gives back `[0, 1]`, and with fuel for two rounds
`rounds_to_loop(2)` returns `2`. -/
theorem rounds_to_loop_two (rounds steps : Nat) (hr : 2 ≤ rounds) (hs : 2 < steps) :
    do_round steps [0, 1] [] = .ok ([1, 0], []) ∧
    do_round steps [1, 0] [] = .ok ([0, 1], []) ∧
    rounds_to_loop rounds steps true 2 = .ok 2 := by
  refine ⟨?_, ?_, rounds_two_spec.1 rounds steps hr hs⟩
  · rw [do_round_eq steps [0, 1] [] (by simpa using hs)]
    exact congrArg (fun l => Except.ok (l, [])) roundOf_two
  · rw [do_round_eq steps [1, 0] [] (by simpa using hs)]
    have h10 : roundOf [1, 0] = [0, 1] := by simp [roundOf, deal]
    exact congrArg (fun l => Except.ok (l, [])) h10

/-- Witness of the amended C4 with fuel for two rounds of three steps. -/
theorem rounds_to_loop_two_witness :
    do_round 3 [0, 1] [] = .ok ([1, 0], []) ∧
    do_round 3 [1, 0] [] = .ok ([0, 1], []) ∧ rounds_to_loop 2 3 true 2 = .ok 2 :=
  rounds_to_loop_two 2 3 (by decide) (by decide)

/-- C4 as stated fails: for no amount of fuel does `do_round` give back `[0, 1]` from
`[0, 1]`, and for no amount of fuel does `rounds_to_loop(2)` return `1`. -/
theorem rounds_to_loop_two_ne_one :
    (¬ ∃ fuel, do_round fuel [0, 1] [] = .ok ([0, 1], [])) ∧
    ¬ ∃ rounds steps, rounds_to_loop rounds steps true 2 = .ok 1 := by
  constructor
  · rintro ⟨fuel, h⟩
    rcases do_round_cases fuel [0, 1] [] with h2 | h2
    · rw [h2] at h
      have : deal [0, 1] [] = [0, 1] := congrArg Prod.fst (Except.ok.inj h)
      rw [show deal [0, 1] [] = roundOf [0, 1] from rfl, roundOf_two] at this
      exact absurd this (by decide)
    · rw [h2] at h
      exact Except.noConfusion h
  · rintro ⟨rounds, steps, h⟩
    exact absurd (rounds_two_spec.2 rounds steps 1 h) (by decide)

/-- C5 on the code: `rounds_to_loop(0)` never returns `0`, for no fuel and no allocation
outcome.  With the allocation succeeding the first round reads a card outside the empty
storage and no value is returned; on allocation failure the sentinel is returned. -/
theorem rounds_to_loop_zero :
    (∀ rounds steps mallocOk, rounds_to_loop rounds steps mallocOk 0 ≠ .ok 0) ∧
    (∀ rounds steps, rounds_to_loop rounds steps true 0 = .error .outOfBounds) ∧
    (∀ rounds steps, rounds_to_loop rounds steps false 0 = .ok 4294967295) := by
  refine ⟨?_, fun _ _ => rfl, fun _ _ => rfl⟩
  intro rounds steps mallocOk hc
  cases mallocOk with
  | true =>
    have h0 : rounds_to_loop rounds steps true 0 = .error .outOfBounds := rfl
    rw [h0] at hc
    exact Except.noConfusion hc
  | false =>
    have h0 : rounds_to_loop rounds steps false 0 = .ok 4294967295 := rfl
    rw [h0] at hc
    exact absurd (Except.ok.inj hc) (by decide)

/-- C6: for `cardCount = 1`, the single card is moved to the table and picked back up,
the order check succeeds after that first round, and `rounds_to_loop` returns `1`. -/
theorem rounds_to_loop_one (rounds steps : Nat) (hr : 1 ≤ rounds) (hs : 1 ≤ steps) :
    init_cards 1 = [0] ∧ do_round steps [0] [] = .ok ([0], []) ∧ is_in_order [0] 1 = 1 ∧
    rounds_to_loop rounds steps true 1 = .ok 1 := by
  obtain ⟨s, rfl⟩ : ∃ s, steps = s + 1 := ⟨steps - 1, by omega⟩
  obtain ⟨r, rfl⟩ : ∃ r, rounds = r + 1 := ⟨rounds - 1, by omega⟩
  have hd : do_round (s + 1) [0] [] = .ok ([0], []) := rfl
  refine ⟨rfl, hd, rfl, ?_⟩
  show rounds_loop (s + 1) 1 (r + 1) [0] [] 0 = .ok 1
  rw [rounds_loop, hd]
  rfl

/-- Witness of C6 with fuel for one round of one step. -/
theorem rounds_to_loop_one_witness :
    init_cards 1 = [0] ∧ do_round 1 [0] [] = .ok ([0], []) ∧ is_in_order [0] 1 = 1 ∧
    rounds_to_loop 1 1 true 1 = .ok 1 :=
  rounds_to_loop_one 1 1 (by decide) (by decide)

/-! ## Invariants of the round -/

/-- C7: for every hand and an empty table, `do_round` returns (for every fuel above the
length of the hand) a hand that is a permutation of the input hand: same length, same
cards, every card as often as before.  Consequently every hand reached after any number
of rounds from the initial hand of `rounds_to_loop(N)`, `N ≤ 255`, is a permutation of
`[0, ..., N-1]`: it has length `N` and holds each value below `N` exactly once. -/
theorem do_round_permutation :
    (∀ hand : List Nat, ∃ hand2,
      (∀ fuel, hand.length < fuel → do_round fuel hand [] = .ok (hand2, [])) ∧
      hand2.Perm hand ∧ hand2.length = hand.length ∧ ∀ c, hand2.count c = hand.count c) ∧
    (∀ N k steps, N ≤ MAX_CARD_COUNT → N < steps → ∃ hand,
      rounds_iter steps k (init_cards N, []) = .ok (hand, []) ∧
      hand.Perm (List.range N) ∧ hand.length = N ∧ ∀ v, v < N → hand.count v = 1) := by
  constructor
  · intro hand
    refine ⟨roundOf hand, fun fuel hf => do_round_eq fuel hand [] hf, roundOf_perm hand,
      roundOf_length hand, fun c => (roundOf_perm hand).count_eq c⟩
  · intro N k steps hN hs
    have hp := roundOf_iterate_perm k (List.range N)
    refine ⟨roundOf^[k] (List.range N), ?_, hp, ?_, ?_⟩
    · rw [init_cards_eq N hN, rounds_iter_eq steps k _ (by simpa using hs)]
    · rw [hp.length_eq, List.length_range]
    · intro v hv
      rw [hp.count_eq v]
      exact List.count_eq_one_of_mem (List.nodup_range N) (List.mem_range.mpr hv)

/-- C8: in every state reached by the loop of `rounds_to_loop` the desk is empty when
`do_round` is entered and when it returns: the state after any number `k` of rounds from
the initial state (the state in which round `k + 1` is entered, and for `k ≥ 1` the one
round `k` returned) has an empty desk, and the round run from it returns an empty desk
again, whatever hand it produces. -/
theorem desk_empty (N k steps : Nat) (hand desk : List Nat)
    (h : rounds_iter steps k (init_cards N, []) = .ok (hand, desk)) :
    desk = [] ∧
    ∀ fuel hand2 desk2, do_round fuel hand desk = .ok (hand2, desk2) → desk2 = [] := by
  constructor
  · rcases rounds_iter_cases steps k (init_cards N) with h2 | h2
    · rw [h2] at h
      exact (congrArg Prod.snd (Except.ok.inj h)).symm
    · rw [h2] at h
      exact Except.noConfusion h
  · intro fuel hand2 desk2 h3
    rcases do_round_cases fuel hand desk with h2 | h2
    · rw [h2] at h3
      exact (congrArg Prod.snd (Except.ok.inj h3)).symm
    · rw [h2] at h3
      exact Except.noConfusion h3

/-- Witness of C8: the state after two rounds on three cards. -/
theorem desk_empty_witness :
    rounds_iter 4 2 (init_cards 3, []) = .ok ([2, 0, 1], []) ∧
    (([] : List Nat) = [] ∧
      ∀ fuel hand2 desk2, do_round fuel [2, 0, 1] [] = .ok (hand2, desk2) → desk2 = []) :=
  ⟨by decide, desk_empty 3 2 4 [2, 0, 1] [] (by decide)⟩

/-- C9: for every count `N` in `[0, 255]` and every hand of exactly `N` cards,
`is_in_order(hand, N)` returns `1` if and only if the card at every position `i < N` has
value `i`, that is, if and only if the hand is `[0, ..., N-1]`; otherwise it returns `0`. -/
theorem is_in_order_spec (N : Nat) (hN : N ≤ MAX_CARD_COUNT) (hand : List Nat)
    (hlen : hand.length = N) :
    (is_in_order hand N = 1 ↔ ∀ i, i < N → hand[i]? = some i) ∧
    (is_in_order hand N = 1 ↔ hand = List.range N) ∧
    (is_in_order hand N ≠ 1 → is_in_order hand N = 0) := by
  have h := is_in_order_loop_spec N hN hand 0 (Nat.zero_le _)
  refine ⟨?_, is_in_order_iff_range N hN hand hlen, ?_⟩
  · unfold is_in_order
    rw [h.1]
    constructor
    · intro H i hi
      simpa using H i (by omega) (by omega)
    · intro H i _ hi
      simpa using H i (by omega)
  · intro hne
    rcases h.2 with h1 | h0
    · exact absurd h1 hne
    · exact h0

/-- Witness of C9 on the hand `[0, 1, 2]`. -/
theorem is_in_order_spec_witness :
    (is_in_order [0, 1, 2] 3 = 1 ↔ ∀ i, i < 3 → [0, 1, 2][i]? = some i) ∧
    (is_in_order [0, 1, 2] 3 = 1 ↔ [0, 1, 2] = List.range 3) ∧
    (is_in_order [0, 1, 2] 3 ≠ 1 → is_in_order [0, 1, 2] 3 = 0) :=
  is_in_order_spec 3 (by decide) [0, 1, 2] rfl

/-- C10: when the allocation of the card storage fails, `rounds_to_loop` returns the
sentinel `(uint32_t)(-1UL) = 4294967295`, whatever the card count, and does so with no
fuel at all, that is, without performing any round. -/
theorem rounds_to_loop_alloc_failure (rounds steps cardCount : Nat) :
    rounds_to_loop rounds steps false cardCount = .ok 4294967295 ∧
    rounds_to_loop 0 0 false cardCount = .ok (U32_MOD - 1) :=
  ⟨rfl, rfl⟩

/-! ## The round count stays below the sentinel -/

theorem walk_le (E i : Nat) : ∀ fuel cur cnt, 1 ≤ cnt → walk E i fuel cur cnt ≤ cnt + fuel := by
  intro fuel
  induction fuel with
  | zero => intro cur cnt _; simp [walk]
  | succ fuel ih =>
    intro cur cnt hc
    rw [walk]
    cases hb : Nat.beq cur i with
    | true => simp only []; omega
    | false =>
      cases hle : Nat.ble i cur with
      | false => simp only []; omega
      | true =>
        simp only [force_eq]
        have := ih (lookup E cur) (cnt + 1) (by omega)
        omega

theorem ordUpTo_not_dvd (E N p : Nat) (hp : p.Prime) (hN : N + 1 < p) :
    ∀ k, ordUpTo E N k ≠ 0 → ¬ p ∣ ordUpTo E N k := by
  intro k
  induction k with
  | zero =>
    intro _ hd
    have h1 : ordUpTo E N 0 = 1 := rfl
    rw [h1] at hd
    have := Nat.le_of_dvd Nat.one_pos hd
    omega
  | succ k ih =>
    intro hne hd
    rw [ordUpTo] at hne hd
    simp only [force_eq] at hne hd
    have hL : ordUpTo E N k ≠ 0 := fun h => hne (by rw [h, Nat.lcm_zero_left])
    have hw : walk E k N (lookup E k) 1 ≠ 0 := fun h => hne (by rw [h, Nat.lcm_zero_right])
    have hmul : p ∣ ordUpTo E N k * walk E k N (lookup E k) 1 :=
      Nat.dvd_trans hd (Nat.lcm_dvd_mul _ _)
    rcases (Nat.Prime.dvd_mul hp).mp hmul with h | h
    · exact ih hL h
    · have h1 := Nat.le_of_dvd (Nat.pos_of_ne_zero hw) h
      have h2 := walk_le E k N (lookup E k) 1 (Nat.le_refl _)
      omega

theorem ordBound_ne_sentinel (N : Nat) (hN : N ≤ MAX_CARD_COUNT) :
    ordBound N ≠ U32_MOD - 1 := by
  have hN2 : N ≤ 255 := hN
  have hpos := (ordBound_ok N hN).1
  intro h
  have hp : Nat.Prime 65537 := by norm_num
  have hd : 65537 ∣ ordBound N := by
    rw [h]
    exact ⟨65535, by norm_num [U32_MOD]⟩
  unfold ordBound at hd hpos
  rw [force_eq] at hd hpos
  exact ordUpTo_not_dvd _ N 65537 hp (by omega) N (by omega) hd

theorem exists_period_below_sentinel (N : Nat) (hN : N ≤ MAX_CARD_COUNT) :
    ∃ L, 1 ≤ L ∧ L < U32_MOD - 1 ∧ roundOf^[L] (List.range N) = List.range N := by
  obtain ⟨h1, h2⟩ := ordBound_ok N hN
  have h3 := ordBound_ne_sentinel N hN
  exact ⟨ordBound N, h1, by omega,
    (roundOf_iterate_range_eq_iff N _).mpr (ordBound_spec N hN (by omega))⟩

/-- C11: for every `N` in `[1, 255]` the number `k` of rounds executed by
`rounds_to_loop(N)` (the first round after which the order check succeeds) is smaller
than `2 ^ 32 - 1`, so the `uint32_t` result `ct + 1` is `k` itself, not a wrapped value,
and never equals the allocation-failure sentinel `4294967295`. -/
theorem rounds_below_sentinel (N : Nat) (h1 : 1 ≤ N) (hN : N ≤ MAX_CARD_COUNT) :
    ∃ k, 1 ≤ k ∧ k < U32_MOD - 1 ∧
      (∀ steps, N < steps → ∃ hand,
        rounds_iter steps k (init_cards N, []) = .ok (hand, []) ∧ is_in_order hand N = 1) ∧
      (∀ j steps hand, 1 ≤ j → j < k →
        rounds_iter steps j (init_cards N, []) = .ok (hand, []) → is_in_order hand N = 0) ∧
      (∀ rounds steps, k ≤ rounds → N < steps → rounds_to_loop rounds steps true N = .ok k) ∧
      (∀ rounds steps r, rounds_to_loop rounds steps true N = .ok r →
        r = k ∧ r ≠ 4294967295 ∧
        rounds_to_loop rounds steps true N ≠ rounds_to_loop rounds steps false N) := by
  have hex := exists_rounds_identity N
  have hspec := Nat.find_spec hex
  have hmin : ∀ j, 1 ≤ j → j < Nat.find hex → roundOf^[j] (List.range N) ≠ List.range N :=
    fun j hj1 hj h => Nat.find_min hex hj ⟨hj1, h⟩
  obtain ⟨L, hL1, hL2, hL⟩ := exists_period_below_sentinel N hN
  have hlt : Nat.find hex < U32_MOD - 1 := lt_of_le_of_lt (Nat.find_min' hex ⟨hL1, hL⟩) hL2
  have hU : U32_MOD = 4294967296 := by norm_num [U32_MOD]
  have hmod : Nat.find hex % U32_MOD = Nat.find hex := Nat.mod_eq_of_lt (by omega)
  have hmain := rounds_to_loop_spec N h1 hN (Nat.find hex) hspec.1 hspec.2 hmin
  rw [hmod] at hmain
  refine ⟨Nat.find hex, hspec.1, hlt, ?_, ?_, hmain.1, ?_⟩
  · intro steps hs
    refine ⟨roundOf^[Nat.find hex] (List.range N), ?_, ?_⟩
    · rw [init_cards_eq N hN, rounds_iter_eq steps _ _ (by simpa using hs)]
    · exact (is_in_order_iterate N hN _).2.mpr hspec.2
  · intro j steps hand hj1 hj h
    rw [init_cards_eq N hN] at h
    rcases rounds_iter_cases steps j (List.range N) with h2 | h2
    · rw [h2] at h
      have hh : roundOf^[j] (List.range N) = hand := congrArg Prod.fst (Except.ok.inj h)
      rw [← hh]
      by_contra hc
      exact hmin j hj1 hj ((is_in_order_iterate N hN j).1.mp hc)
    · rw [h2] at h
      exact Except.noConfusion h
  · intro rounds steps r h
    have hr := hmain.2 rounds steps r h
    have hne : r ≠ 4294967295 := by omega
    refine ⟨hr, hne, ?_⟩
    rw [h]
    intro hc
    have : rounds_to_loop rounds steps false N = .ok 4294967295 := rfl
    rw [this] at hc
    exact hne (Except.ok.inj hc)

/-- Witness of C11 at `N = 7`. -/
theorem rounds_below_sentinel_witness :
    ∃ k, 1 ≤ k ∧ k < U32_MOD - 1 ∧
      (∀ steps, 7 < steps → ∃ hand,
        rounds_iter steps k (init_cards 7, []) = .ok (hand, []) ∧ is_in_order hand 7 = 1) ∧
      (∀ j steps hand, 1 ≤ j → j < k →
        rounds_iter steps j (init_cards 7, []) = .ok (hand, []) → is_in_order hand 7 = 0) ∧
      (∀ rounds steps, k ≤ rounds → 7 < steps → rounds_to_loop rounds steps true 7 = .ok k) ∧
      (∀ rounds steps r, rounds_to_loop rounds steps true 7 = .ok r →
        r = k ∧ r ≠ 4294967295 ∧
        rounds_to_loop rounds steps true 7 ≠ rounds_to_loop rounds steps false 7) :=
  rounds_below_sentinel 7 (by decide) (by decide)

/-! ## The command-line wrapper -/

theorem main_called (rounds steps : Nat) (mallocOk : Bool) (argc : Nat) (parsed : Int)
    (run : MainRun) (n : Nat)
    (h : main rounds steps mallocOk argc parsed = .ok run) (hc : run.called = some n) :
    1 < argc ∧ 2 ≤ n ∧ n ≤ MAX_CARD_COUNT ∧ n = to_ulong parsed := by
  unfold main at h
  by_cases h1 : argc > 1
  · simp only [h1, if_true] at h
    by_cases h2 : to_ulong parsed > MAX_CARD_COUNT
    · simp only [h2, if_true] at h
      have := Except.ok.inj h
      subst this
      exact absurd hc (by simp)
    · simp only [h2, if_false] at h
      have h255 : to_ulong parsed ≤ 255 := Nat.le_of_not_lt h2
      have hmod : to_ulong parsed % CARD_MOD = to_ulong parsed :=
        Nat.mod_eq_of_lt (by simp only [CARD_MOD]; omega)
      rw [hmod] at h
      by_cases h3 : to_ulong parsed ≤ 1
      · simp only [h3, if_true] at h
        have := Except.ok.inj h
        subst this
        exact absurd hc (by simp)
      · simp only [h3, if_false] at h
        cases hr : rounds_to_loop rounds steps mallocOk (to_ulong parsed) with
        | error e =>
          rw [hr] at h
          exact Except.noConfusion h
        | ok r =>
          rw [hr] at h
          simp only [] at h
          have hn : n = to_ulong parsed := by
            split_ifs at h <;>
            · have := Except.ok.inj h
              subst this
              exact (Option.some.inj hc).symm
          refine ⟨h1, ?_, ?_, hn⟩
          · omega
          · rw [hn]; exact h255
  · simp only [h1, if_false] at h
    have := Except.ok.inj h
    subst this
    exact absurd hc (by simp)

theorem to_ulong_neg (parsed : Int) (hneg : parsed < 0) (hmin : -(2 : Int) ^ 63 ≤ parsed) :
    2 ^ 63 ≤ to_ulong parsed := by
  unfold to_ulong ULONG_MOD
  have h1 : parsed % ((2 ^ 64 : Nat) : Int) = parsed + 2 ^ 64 := by
    rw [Int.emod_def]
    have : parsed / ((2 ^ 64 : Nat) : Int) = -1 := by
      have : (2 : Int) ^ 63 = 9223372036854775808 := by norm_num
      norm_num
      omega
    rw [this]
    push_cast
    ring
  rw [h1]
  have : (2 : Int) ^ 63 = 9223372036854775808 := by norm_num
  have h64 : (2 : Int) ^ 64 = 18446744073709551616 := by norm_num
  have h63n : (2 : Nat) ^ 63 = 9223372036854775808 := by norm_num
  omega

/-- C12: when `main` gets an argument whose `strtol` value, converted to `unsigned long`,
exceeds `MAX_CARD_COUNT = 255`, it prints the limit and returns `-1` without calling
`rounds_to_loop`, whatever the fuel and the allocation outcome; a negative `long` becomes
at least `2 ^ 63` and is rejected in this way.  Every value that is not rejected is at most
`255`, its conversion to `card_value_t` leaves it unchanged, and `rounds_to_loop` is only
ever called with the parsed value itself. -/
theorem main_range_check (rounds steps : Nat) (mallocOk : Bool) (argc : Nat) (parsed : Int)
    (hargc : 1 < argc) :
    (MAX_CARD_COUNT < to_ulong parsed →
      main rounds steps mallocOk argc parsed =
        .ok { ret := -1, called := none, out := .tooMany 255 }) ∧
    (parsed < 0 → -(2 : Int) ^ 63 ≤ parsed → MAX_CARD_COUNT < to_ulong parsed) ∧
    (to_ulong parsed ≤ MAX_CARD_COUNT →
      to_ulong parsed ≤ 255 ∧ to_ulong parsed % CARD_MOD = to_ulong parsed) ∧
    (∀ run n, main rounds steps mallocOk argc parsed = .ok run → run.called = some n →
      n = to_ulong parsed ∧ n ≤ 255) := by
  refine ⟨?_, ?_, ?_, ?_⟩
  · intro hbig
    unfold main
    simp only [gt_iff_lt, hargc, if_true, hbig]
    rfl
  · intro hneg hmin
    have := to_ulong_neg parsed hneg hmin
    have h255 : MAX_CARD_COUNT = 255 := rfl
    have h63n : (2 : Nat) ^ 63 = 9223372036854775808 := by norm_num
    omega
  · intro hle
    have h255 : to_ulong parsed ≤ 255 := hle
    exact ⟨h255, Nat.mod_eq_of_lt (by simp only [CARD_MOD]; omega)⟩
  · intro run n h hc
    obtain ⟨_, _, h3, h4⟩ := main_called rounds steps mallocOk argc parsed run n h hc
    exact ⟨h4, h3⟩

/-- Witness of C12: the arguments `300` and `-1` are rejected without any fuel. -/
theorem main_range_check_witness :
    main 0 0 true 2 300 = .ok { ret := -1, called := none, out := .tooMany 255 } ∧
    main 0 0 true 2 (-1) = .ok { ret := -1, called := none, out := .tooMany 255 } :=
  ⟨(main_range_check 0 0 true 2 300 (by decide)).1 (by decide),
   (main_range_check 0 0 true 2 (-1) (by decide)).1 (by decide)⟩

/-- C13: at the program level, for `N = 0` and `N = 1` `main` reports `N` rounds and
returns `N` without calling `rounds_to_loop`, whatever the fuel and the allocation
outcome; whenever `main` calls `rounds_to_loop`, the deck size is the parsed value and
lies in `[2, 255]`. -/
theorem main_small_decks (rounds steps : Nat) (mallocOk : Bool) (argc : Nat)
    (hargc : 1 < argc) :
    main rounds steps mallocOk argc 0 =
      .ok { ret := 0, called := none, out := .report 0 0 } ∧
    main rounds steps mallocOk argc 1 =
      .ok { ret := 1, called := none, out := .report 1 1 } ∧
    (∀ parsed run n, main rounds steps mallocOk argc parsed = .ok run →
      run.called = some n → 2 ≤ n ∧ n ≤ 255 ∧ n = to_ulong parsed) := by
  refine ⟨?_, ?_, ?_⟩
  · unfold main
    simp only [gt_iff_lt, hargc, if_true]
    rfl
  · unfold main
    simp only [gt_iff_lt, hargc, if_true]
    rfl
  · intro parsed run n h hc
    obtain ⟨_, h2, h3, h4⟩ := main_called rounds steps mallocOk argc parsed run n h hc
    exact ⟨h2, h3, h4⟩

/-- Witness of C13 with two command-line words and no fuel. -/
theorem main_small_decks_witness :
    main 0 0 true 2 0 = .ok { ret := 0, called := none, out := .report 0 0 } ∧
    main 0 0 true 2 1 = .ok { ret := 1, called := none, out := .report 1 1 } ∧
    (∀ parsed run n, main 0 0 true 2 parsed = .ok run →
      run.called = some n → 2 ≤ n ∧ n ≤ 255 ∧ n = to_ulong parsed) :=
  main_small_decks 0 0 true 2 (by decide)

/-! ## The round and the rule of the problem statement -/

theorem naive_loop_eq (fuel : Nat) :
    ∀ hand table : List Nat, hand.length < fuel →
      naive_loop fuel hand table = .ok (deal hand table) := by
  induction fuel with
  | zero => intro hand table h; exact absurd h (Nat.not_lt_zero _)
  | succ fuel ih =>
    intro hand table h
    match hand, h with
    | [], _ => simp [naive_loop, deal]
    | [c], h =>
      rw [naive_loop,
        ih [] (c :: table) (by simp only [List.length_cons, List.length_nil] at h ⊢; omega)]
      simp [deal]
    | c :: d :: rest, h =>
      rw [naive_loop, ih (rest ++ [d]) (c :: table) (by simp at h ⊢; omega), deal_cons_cons]

/-- C14: `do_round` agrees with the unmodified rule of the problem statement.  For every
hand there is one resulting hand that both `do_round` (which pushes the second card
straight onto the table when it was the last one) and the naive procedure (which always
puts the second card on the bottom of the hand) return, for every fuel above the length
of the hand. -/
theorem do_round_eq_naive (hand : List Nat) :
    ∃ result,
      (∀ fuel, hand.length < fuel → do_round fuel hand [] = .ok (result, [])) ∧
      (∀ fuel, hand.length < fuel → naive_round fuel hand = .ok result) ∧
      (∀ fuel, hand.length < fuel →
        (do_round fuel hand []).map Prod.fst = naive_round fuel hand) := by
  refine ⟨deal hand [], fun fuel hf => do_round_eq fuel hand [] hf,
    fun fuel hf => naive_loop_eq fuel hand [] hf, fun fuel hf => ?_⟩
  rw [do_round_eq fuel hand [] hf]
  exact (naive_loop_eq fuel hand [] hf).symm

/-! ## Safety of the round -/

/-- C15: for every finite hand `do_round` terminates and never violates the preconditions
of the queue primitives.  With fuel above the length of the hand the loop returns a table
and `do_round` a result; with any fuel the result is never the `nullDeref` fault, so no
call of `dequeue_head` or `enqueue_tail` is made on the empty chain; and every loop
iteration on a non-empty hand either leaves the loop or continues with a strictly shorter
hand. -/
theorem do_round_safe (hand table : List Nat) :
    (∀ fuel, hand.length < fuel →
      ∃ result, do_round_loop fuel hand table = .ok result ∧
        do_round fuel hand table = .ok (result, [])) ∧
    (∀ fuel, do_round_loop fuel hand table ≠ .error .nullDeref ∧
      do_round fuel hand table ≠ .error .nullDeref) ∧
    (∀ fuel, hand ≠ [] →
      (∃ result, do_round_loop (fuel + 1) hand table = .ok result) ∨
      ∃ hand2 table2, hand2.length < hand.length ∧
        do_round_loop (fuel + 1) hand table = do_round_loop fuel hand2 table2) := by
  refine ⟨?_, ?_, ?_⟩
  · intro fuel hf
    exact ⟨deal hand table, do_round_loop_eq fuel hand table hf, do_round_eq fuel hand table hf⟩
  · intro fuel
    constructor
    · rcases do_round_loop_cases fuel hand table with h | h <;> rw [h] <;> intro hc <;>
        cases hc
    · rcases do_round_cases fuel hand table with h | h <;> rw [h] <;> intro hc <;>
        cases hc
  · intro fuel hne
    match hand, hne with
    | [c], _ => left; exact ⟨c :: table, by simp [do_round_loop, dequeue_head, enqueue_head]⟩
    | [c, d], _ =>
      right
      exact ⟨[], d :: c :: table, by simp,
        by simp [do_round_loop, dequeue_head, enqueue_head]⟩
    | c :: d :: e :: rest, _ =>
      right
      refine ⟨e :: rest ++ [d], c :: table, by simp, ?_⟩
      rw [do_round_loop]
      simp [dequeue_head, enqueue_head, enqueue_tail_ok]

/-! ## Where the front card goes -/

theorem deal_append (extra : List Nat) :
    ∀ hand table : List Nat, deal hand (table ++ extra) = deal hand table ++ extra := by
  intro hand table
  induction hand, table using deal.induct with
  | case1 table => simp [deal]
  | case2 c table => simp [deal]
  | case3 c d table => simp [deal]
  | case4 c d e rest table ih =>
    rw [deal, deal]
    simpa using ih

theorem deal_append_table (hand table : List Nat) : deal hand table = deal hand [] ++ table := by
  simpa using deal_append table hand []

theorem roundOf_cons (c : Nat) (rest : List Nat) : ∃ pre, roundOf (c :: rest) = pre ++ [c] := by
  unfold roundOf
  match rest with
  | [] => exact ⟨[], by simp [deal]⟩
  | d :: r =>
    rw [deal_cons_cons, deal_append_table]
    exact ⟨_, rfl⟩

theorem roundOf_last (hand : List Nat) (h : 1 ≤ hand.length) :
    (roundOf hand)[hand.length - 1]? = hand[0]? := by
  match hand, h with
  | c :: rest, _ =>
    obtain ⟨pre, hpre⟩ := roundOf_cons c rest
    have hlen : pre.length = rest.length := by
      have := congrArg List.length hpre
      rw [roundOf_length] at this
      simpa using this.symm
    rw [hpre]
    simp [← hlen]

theorem roundOf_ne_self (hand : List Nat) (h2 : 2 ≤ hand.length) (hnd : hand.Nodup) :
    roundOf hand ≠ hand := by
  match hand, h2, hnd with
  | c :: d :: rest, _, hnd =>
    intro heq
    obtain ⟨pre, hpre⟩ := roundOf_cons c (d :: rest)
    rw [heq] at hpre
    cases pre with
    | nil =>
      have := congrArg List.length hpre
      simp at this
    | cons a pre2 =>
      have ha : c = a := (List.cons.inj hpre).1
      have htail : d :: rest = pre2 ++ [c] := by
        have := (List.cons.inj hpre).2
        simpa using this
      have hmem : c ∈ d :: rest := by rw [htail]; simp
      exact (List.nodup_cons.mp hnd).1 hmem

/-- C16: for every hand of length at least two, the card at the front of the hand is the
last card of the hand returned by `do_round`, so a round does not leave a hand of
distinct cards in its order; and for every `N` in `[2, 255]` the value returned by
`rounds_to_loop(N)` is at least `2`. -/
theorem front_card_goes_last (hand : List Nat) (h2 : 2 ≤ hand.length) (N : Nat)
    (hN2 : 2 ≤ N) (hN : N ≤ MAX_CARD_COUNT) :
    (∃ result, (∀ fuel, hand.length < fuel → do_round fuel hand [] = .ok (result, [])) ∧
      result[hand.length - 1]? = hand[0]? ∧ (hand.Nodup → result ≠ hand)) ∧
    (∃ k, 2 ≤ k ∧
      (∀ rounds steps, k ≤ rounds → N < steps →
        rounds_to_loop rounds steps true N = .ok k) ∧
      ∀ rounds steps r, rounds_to_loop rounds steps true N = .ok r → 2 ≤ r) := by
  constructor
  · exact ⟨roundOf hand, fun fuel hf => do_round_eq fuel hand [] hf,
      roundOf_last hand (by omega), roundOf_ne_self hand h2⟩
  · have hex := exists_rounds_identity N
    have hspec := Nat.find_spec hex
    have hmin : ∀ j, 1 ≤ j → j < Nat.find hex → roundOf^[j] (List.range N) ≠ List.range N :=
      fun j hj1 hj h => Nat.find_min hex hj ⟨hj1, h⟩
    obtain ⟨L, hL1, hL2, hL⟩ := exists_small_period N hN
    have hlt : Nat.find hex < U32_MOD := lt_of_le_of_lt (Nat.find_min' hex ⟨hL1, hL⟩) hL2
    have hmod : Nat.find hex % U32_MOD = Nat.find hex := Nat.mod_eq_of_lt hlt
    have hmain := rounds_to_loop_spec N (by omega) hN (Nat.find hex) hspec.1 hspec.2 hmin
    rw [hmod] at hmain
    have hk2 : 2 ≤ Nat.find hex := by
      by_contra hc
      have h1 : Nat.find hex = 1 := by have := hspec.1; omega
      have hone := hspec.2
      rw [h1] at hone
      exact roundOf_ne_self (List.range N) (by simpa using hN2) (List.nodup_range N) hone
    refine ⟨Nat.find hex, hk2, hmain.1, ?_⟩
    intro rounds steps r h
    rw [hmain.2 rounds steps r h]
    exact hk2

/-- Witness of C16 on the hand `[4, 5, 6]` and the deck size `2`. -/
theorem front_card_goes_last_witness :
    (∃ result, (∀ fuel, [4, 5, 6].length < fuel →
        do_round fuel [4, 5, 6] [] = .ok (result, [])) ∧
      result[[4, 5, 6].length - 1]? = [4, 5, 6][0]? ∧
      (([4, 5, 6] : List Nat).Nodup → result ≠ [4, 5, 6])) ∧
    (∃ k, 2 ≤ k ∧
      (∀ rounds steps, k ≤ rounds → 2 < steps →
        rounds_to_loop rounds steps true 2 = .ok k) ∧
      ∀ rounds steps r, rounds_to_loop rounds steps true 2 = .ok r → 2 ≤ r) :=
  front_card_goes_last [4, 5, 6] (by decide) 2 (by decide) (by decide)

/-! ## Independence of the card values -/

theorem roundOf_eq_map_perm (hand : List Nat) :
    roundOf hand = (perm hand.length).map (fun i => hand.getD i 0) := by
  conv_lhs => rw [← map_getD_range hand]
  rw [roundOf_map]
  rfl

/-- C17: `do_round` rearranges positions only.  For every hand and every function `f` on
card values, the round of the hand with `f` mapped over it is the round of the hand with
`f` mapped over it afterwards; and for each length `N` one fixed permutation `p` of the
positions `[0, ..., N-1]` gives the result on every hand of length `N`: the card at
position `i` of the result is the card at position `p[i]` of the hand. -/
theorem do_round_value_independent :
    (∀ (hand : List Nat) (f : Nat → Nat), ∃ result,
      (∀ fuel, hand.length < fuel → do_round fuel hand [] = .ok (result, [])) ∧
      (∀ fuel, hand.length < fuel →
        do_round fuel (hand.map f) [] = .ok (result.map f, []))) ∧
    (∀ N, ∃ p : List Nat, p.Perm (List.range N) ∧
      ∀ hand : List Nat, hand.length = N → ∀ fuel, N < fuel →
        do_round fuel hand [] = .ok (p.map (fun i => hand.getD i 0), [])) := by
  constructor
  · intro hand f
    refine ⟨roundOf hand, fun fuel hf => do_round_eq fuel hand [] hf, fun fuel hf => ?_⟩
    rw [do_round_eq fuel (hand.map f) [] (by simpa using hf)]
    exact congrArg (fun l => Except.ok (l, [])) (roundOf_map f hand)
  · intro N
    refine ⟨perm N, perm_perm N, ?_⟩
    intro hand hlen fuel hf
    rw [do_round_eq fuel hand [] (by omega)]
    have := roundOf_eq_map_perm hand
    rw [hlen] at this
    exact congrArg (fun l => Except.ok (l, [])) this

/-! ## The order check on hands of any length -/

/-- C18: `is_in_order` does not check the length of the hand.  For every hand and every
count (a `card_value_t`, so at most `255`) it returns `1` exactly when the first
`min(length(hand), count)` cards have the values `0, 1, 2, ...` of their positions, and
`0` otherwise.  In particular it returns `1` for the empty hand with any count and for
every hand `[0, ..., n-1]` shorter than the count. -/
theorem is_in_order_ignores_length (hand : List Nat) (count : Nat)
    (hc : count ≤ MAX_CARD_COUNT) :
    (is_in_order hand count = 1 ↔
      ∀ i, i < min hand.length count → hand[i]? = some i) ∧
    (is_in_order hand count ≠ 1 → is_in_order hand count = 0) ∧
    is_in_order [] count = 1 ∧
    (∀ n, n < count → is_in_order (List.range n) count = 1) := by
  have hgen : ∀ l : List Nat, (is_in_order l count = 1 ↔
      ∀ i, i < min l.length count → l[i]? = some i) := by
    intro l
    have h := (is_in_order_loop_spec count hc l 0 (Nat.zero_le _)).1
    unfold is_in_order
    rw [h]
    constructor
    · intro H i hi
      have := H i (by omega) (by omega)
      simpa using this
    · intro H i h1 h2
      have := H i (by omega)
      simpa using this
  refine ⟨hgen hand, ?_, rfl, ?_⟩
  · intro hne
    rcases (is_in_order_loop_spec count hc hand 0 (Nat.zero_le _)).2 with h1 | h0
    · exact absurd h1 hne
    · exact h0
  · intro n hn
    rw [hgen]
    intro i hi
    exact List.getElem?_range (by simp at hi; omega)

/-- Witness of C18: the hand `[0, 1]` passes the check for the count `5`. -/
theorem is_in_order_ignores_length_witness :
    is_in_order [0, 1] 5 = 1 ∧
    (is_in_order [0, 1] 5 = 1 ↔
      ∀ i, i < min [0, 1].length 5 → [0, 1][i]? = some i) :=
  ⟨by decide, (is_in_order_ignores_length [0, 1] 5 (by decide)).1⟩

end Cards
